import Mathlib

/-
Verification of the Figlewski option-hedging simulation notebook.

The program simulates 25 daily prices for 250 assets under geometric Brownian
motion, prices European calls with the Black-Scholes-Merton formula along each
path, and measures the daily excess return of a discretely rebalanced delta
hedge, optionally with the hedge ratio rounded to a lot size.

The embedding below translates the notebook's code cells into Lean functions
over the reals: the path generation loop, the `bscall` pricer, the option grid
time-to-expiry, the `excess_return` routine, the lot rounding of deltas, the
in-the-money summary, and the numpy-style mean / population standard deviation.
Random draws are modelled as an explicit input sequence of shocks.
-/

namespace Figlewski

open MeasureTheory Filter

/-- Annual drift used by the simulation (source: `ar=0.15`). -/
noncomputable def ar : ℝ := 0.15

/-- Daily log drift (source: `R=log(1+ar)/260`). -/
noncomputable def R : ℝ := Real.log (1 + ar) / 260

/-- Daily volatility (source: `v=ar/sqrt(260)`). -/
noncomputable def v : ℝ := ar / Real.sqrt 260

/-- Price path of one asset, with the standard-normal draws supplied as an
explicit sequence `z`.  Source loop: `price[0]=100` and, for `t` in `1..24`,
`price[t]=price[t-1]*exp(R+v*np.random.normal(0,1))`. -/
noncomputable def pathPrice (z : ℕ → ℝ) : ℕ → ℝ
  | 0 => 100
  | t + 1 => pathPrice z t * Real.exp (R + v * z (t + 1))

/-- Value of the scalar variable `dr` after iteration `t` of the inner loop.
The source initialises `dr` as an array with `dr[0]=0`, but the loop body
`dr=log(price[t]/price[t-1])` rebinds `dr` to a scalar, so after iteration `t`
the whole variable is the single number `log(price[t]/price[t-1])`. -/
noncomputable def drVar (z : ℕ → ℝ) (t : ℕ) : ℝ :=
  if t = 0 then 0 else Real.log (pathPrice z t / pathPrice z (t - 1))

/-- Row `daily_returns[i]` produced by `daily_returns[i]=dr`: numpy broadcasts
the final scalar value of `dr` (iteration `t = 24`) into all 25 entries. -/
noncomputable def daily_returns_row (z : ℕ → ℝ) : List ℝ :=
  List.replicate 25 (drVar z 24)

/-- numpy `np.mean` over a list: sum divided by length. -/
noncomputable def npMean (xs : List ℝ) : ℝ := xs.sum / (xs.length : ℝ)

/-- numpy `np.std` over a list: the population standard deviation, the square
root of the mean squared deviation from the mean. -/
noncomputable def npStd (xs : List ℝ) : ℝ :=
  Real.sqrt (npMean (xs.map (fun x => (x - npMean xs) ^ 2)))

/-- Per-asset realized volatility (source: `vol[i]=np.std(daily_returns[i])`). -/
noncomputable def volOf (z : ℕ → ℝ) : ℝ := npStd (daily_returns_row z)

/-- The list of the 250 per-asset volatilities (source loop over `i in range(250)`),
with `zs i` giving asset `i`'s shock sequence. -/
noncomputable def vols (zs : ℕ → ℕ → ℝ) : List ℝ :=
  (List.range 250).map (fun i => volOf (zs i))

/-- Source: `mean_annualized_volatility=np.mean(vol)*sqrt(260/24)`. -/
noncomputable def mean_annualized_volatility (zs : ℕ → ℕ → ℝ) : ℝ :=
  npMean (vols zs) * Real.sqrt (260 / 24)

/-- Source: `stdev_annualized_volatility=np.std(vol)*sqrt(260/24)`. -/
noncomputable def stdev_annualized_volatility (zs : ℕ → ℕ → ℝ) : ℝ :=
  npStd (vols zs) * Real.sqrt (260 / 24)

/-- Standard normal cumulative distribution function, the mathematical meaning
of `scipy.stats.norm.cdf` used as `N` inside `bscall`. -/
noncomputable def normCdf (x : ℝ) : ℝ :=
  (Real.sqrt (2 * Real.pi))⁻¹ * ∫ t in Set.Iic x, Real.exp (-(t ^ 2) / 2)

/-- Standard normal density, the derivative of `normCdf`. -/
noncomputable def normPdf (x : ℝ) : ℝ :=
  (Real.sqrt (2 * Real.pi))⁻¹ * Real.exp (-(x ^ 2) / 2)

/-- d1 of the Black-Scholes-Merton call formula.  Source (inside `bscall`):
`d1=(np.log(price/strike)+(rfr-div+vol**2/2)*T)/(vol*np.sqrt(T))`. -/
noncomputable def bscall_d1 (price strike rfr vol div T : ℝ) : ℝ :=
  (Real.log (price / strike) + (rfr - div + vol ^ 2 / 2) * T) / (vol * Real.sqrt T)

/-- d2 of the Black-Scholes-Merton call formula.  Source: `d2=d1-vol*np.sqrt(T)`. -/
noncomputable def bscall_d2 (price strike rfr vol div T : ℝ) : ℝ :=
  bscall_d1 price strike rfr vol div T - vol * Real.sqrt T

/-- The notebook's pricer, returning the pair `(call, delta)`.  Source:
`call = price*np.exp(-div*T)*N(d1)-strike*np.exp(-rfr*T)*N(d2)`,
`delta=N(d1)`, `return call,delta`. -/
noncomputable def bscall (price strike rfr vol div T : ℝ) : ℝ × ℝ :=
  (price * Real.exp (-div * T) * normCdf (bscall_d1 price strike rfr vol div T)
      - strike * Real.exp (-rfr * T) * normCdf (bscall_d2 price strike rfr vol div T),
    normCdf (bscall_d1 price strike rfr vol div T))

/-- The pricer contract exactly as the specification writes it, for comparison
with `bscall`: `call_price = spot * exp(-dividend_yield*T) * Φ(d1) - strike *
exp(-rate*T) * Φ(d2)` and `delta = Φ(d1)` with the spec's d1 and d2. -/
noncomputable def bscallSpecContract (spot strike rate volatility dividend_yield T : ℝ) : ℝ × ℝ :=
  (spot * Real.exp (-dividend_yield * T) *
      normCdf ((Real.log (spot / strike) + (rate - dividend_yield + volatility ^ 2 / 2) * T) /
        (volatility * Real.sqrt T))
    - strike * Real.exp (-rate * T) *
      normCdf ((Real.log (spot / strike) + (rate - dividend_yield + volatility ^ 2 / 2) * T) /
          (volatility * Real.sqrt T) - volatility * Real.sqrt T),
    normCdf ((Real.log (spot / strike) + (rate - dividend_yield + volatility ^ 2 / 2) * T) /
      (volatility * Real.sqrt T)))

/-- Time to expiry used by the option grid at day index `j`.  Source loop:
`T=(25-j)` followed by the call `bscall(price,strikes[k],rfr,vol,div,T/260)`. -/
noncomputable def gridTimeToExpiry (j : ℕ) : ℝ := ((25 - j : ℕ) : ℝ) / 260

/-- One entry of the option grid: the pricer evaluated at asset `i`, day `j`
with that day's spot `assets[i,j]` and the grid's time to expiry. -/
noncomputable def optionGridEntry (assets : ℕ → ℕ → ℝ) (strike rfr vol div : ℝ)
    (i j : ℕ) : ℝ × ℝ :=
  bscall (assets i j) strike rfr vol div (gridTimeToExpiry j)

/-- Daily excess return of the hedge, the body of `excess_return`:
`d_excess_return[:,:,0]=0` and, for `k` in `1..24`,
`d_excess_return[i][j][k]=(ct-ct1)-h*(pt-pt1)-dr*(ct1-h*pt1)` with
`dr=rfr/260`, where `C`, `h`, `P` are the option price, delta and underlying
price series of one (strike, asset) pair. -/
noncomputable def dExcessReturn (C h P : ℕ → ℝ) (rfr : ℝ) (t : ℕ) : ℝ :=
  if t = 0 then 0
  else (C t - C (t - 1)) - h (t - 1) * (P t - P (t - 1))
      - rfr / 260 * (C (t - 1) - h (t - 1) * P (t - 1))

/-- Per-path aggregate excess return (source: `e_r[i][j]=np.sum(d_excess_return[i][j])`),
over a horizon of `T` days. -/
noncomputable def excess_return (C h P : ℕ → ℝ) (rfr : ℝ) (T : ℕ) : ℝ :=
  ∑ k in Finset.range T, dExcessReturn C h P rfr k

/-- Embedding of numpy's `.round()`, which rounds halves to the nearest even
integer; away from halves it agrees with rounding to the nearest integer. -/
noncomputable def npRound (x : ℝ) : ℤ :=
  if Int.fract x = 1 / 2 then (if ⌊x⌋ % 2 = 0 then ⌊x⌋ else ⌊x⌋ + 1) else round x

/-- Lot rounding of a delta (source: `r_deltas=K[i] * (call_deltas/ K[i]).round()`). -/
noncomputable def roundLot (K d : ℝ) : ℝ := K * (npRound (d / K) : ℤ)

/-- Modelled from the spec: the HedgeSimulator's optional `lot_size` argument,
"lot_size omitted or treated as zero ⇒ no rounding, use continuous delta".
The source has no such dispatch; it applies the rounding inline only for the
five concrete lot sizes `K=[0.02,0.05,0.10,0.25,1]` and otherwise passes the
continuous deltas directly. -/
noncomputable def hedgeDeltas (lot : Option ℝ) (h : ℕ → ℝ) : ℕ → ℝ :=
  match lot with
  | none => h
  | some K => if K = 0 then h else fun t => roundLot K (h t)

/-- In-the-money indicator (source: `inTheMoney[i][p][0]=1` when
`final_prices[p]>strikes[i]`, else `0`). -/
noncomputable def itmIndicator (finalPrice strike : ℝ) : ℝ :=
  if strike < finalPrice then 1 else 0

/-- In-the-money payoff (source: `inTheMoney[i][p][1]=final_prices[p]-strikes[i]`
when `final_prices[p]>strikes[i]`, else `0`). -/
noncomputable def itmPayoff (finalPrice strike : ℝ) : ℝ :=
  if strike < finalPrice then finalPrice - strike else 0

/-- Count of in-the-money paths (source: `num_ITM[i]=np.sum(inTheMoney[i,:,0])`). -/
noncomputable def num_ITM (finals : List ℝ) (strike : ℝ) : ℝ :=
  (finals.map (fun p => itmIndicator p strike)).sum

/-- Source: `avg_ITM[i]=np.mean(inTheMoney[i,:,1]*inTheMoney[i,:,0])` — the mean
over all paths of the indicator-weighted payoff. -/
noncomputable def avg_ITM (finals : List ℝ) (strike : ℝ) : ℝ :=
  npMean (finals.map (fun p => itmPayoff p strike * itmIndicator p strike))

/-- Source: `stdev_ITM[i]=np.std(inTheMoney[i,:,0]*inTheMoney[i,:,1])`. -/
noncomputable def stdev_ITM (finals : List ℝ) (strike : ℝ) : ℝ :=
  npStd (finals.map (fun p => itmIndicator p strike * itmPayoff p strike))

/-- The spec's words for the same quantity: the "mean payoff conditional on
being in the money", i.e. total payoff divided by the number of in-the-money
paths (the payoff vanishes off the in-the-money set). -/
noncomputable def avg_ITM_condSpec (finals : List ℝ) (strike : ℝ) : ℝ :=
  (finals.map (fun p => itmPayoff p strike)).sum / num_ITM finals strike

/-- Error taxonomy of the spec's StatisticsAggregator. -/
inductive AggError where
  | EmptyInput

/-- Modelled from the spec: the StatisticsAggregator's mean reducer, "an empty
collection fails with an EmptyInput error".  The source has no such aggregator;
it calls `np.mean` directly, and only ever on fixed-size non-empty arrays. -/
noncomputable def aggMean (xs : List ℝ) : Except AggError ℝ :=
  if xs.isEmpty then Except.error AggError.EmptyInput else Except.ok (npMean xs)

/-- Modelled from the spec: the StatisticsAggregator's population standard
deviation reducer with the EmptyInput guard; the source calls `np.std`
directly, only on non-empty arrays. -/
noncomputable def aggStd (xs : List ℝ) : Except AggError ℝ :=
  if xs.isEmpty then Except.error AggError.EmptyInput else Except.ok (npStd xs)

/-- Modelled from the spec: the StatisticsAggregator's count reducer with the
EmptyInput guard. -/
noncomputable def aggCount (xs : List ℝ) : Except AggError ℕ :=
  if xs.isEmpty then Except.error AggError.EmptyInput else Except.ok xs.length

/-! ## Helper lemmas -/

lemma pathPrice_pos (z : ℕ → ℝ) : ∀ t, 0 < pathPrice z t := by
  intro t
  induction t with
  | zero => norm_num [pathPrice]
  | succ n ih => exact mul_pos ih (Real.exp_pos _)

lemma npMean_replicate (n : ℕ) (x : ℝ) (hn : n ≠ 0) :
    npMean (List.replicate n x) = x := by
  have hn' : (n : ℝ) ≠ 0 := Nat.cast_ne_zero.2 hn
  simp [npMean, List.sum_replicate, nsmul_eq_mul]
  field_simp

lemma npStd_replicate (n : ℕ) (x : ℝ) : npStd (List.replicate n x) = 0 := by
  rcases Nat.eq_zero_or_pos n with rfl | hn
  · simp [npStd, npMean]
  · have hn : n ≠ 0 := hn.ne'
    rw [npStd, List.map_replicate, npMean_replicate n x hn]
    rw [sub_self, zero_pow (by norm_num), npMean_replicate n 0 hn]
    exact Real.sqrt_zero

lemma npMean_of_all_zero (l : List ℝ) (h : ∀ x ∈ l, x = 0) : npMean l = 0 := by
  rw [npMean, List.sum_eq_zero h, zero_div]

lemma npStd_of_all_zero (l : List ℝ) (h : ∀ x ∈ l, x = 0) : npStd l = 0 := by
  rw [npStd]
  have h' : ∀ y ∈ l.map (fun x => (x - npMean l) ^ 2), y = 0 := by
    intro y hy
    obtain ⟨x, hx, rfl⟩ := List.mem_map.1 hy
    rw [h x hx, npMean_of_all_zero l h, sub_self]
    norm_num
  rw [npMean_of_all_zero _ h', Real.sqrt_zero]

/-! ## Claims -/

/-- C1: the excess-return series has `ER[0] = 0`, satisfies
`ER[t] = (C[t]-C[t-1]) - h[t-1]*(P[t]-P[t-1]) - r*(C[t-1]-h[t-1]*P[t-1])`
for every day `t` from 1 to `T-1`, using the daily rate `r = rfr/260`, and the
per-path aggregate is the sum of the `T` daily values. -/
theorem excess_return_series_correct (C h P : ℕ → ℝ) (rfr r : ℝ) (T t : ℕ)
    (hr : r = rfr / 260) (ht1 : 1 ≤ t) (htT : t < T) :
    dExcessReturn C h P rfr 0 = 0 ∧
    dExcessReturn C h P rfr t
        = (C t - C (t - 1)) - h (t - 1) * (P t - P (t - 1))
            - r * (C (t - 1) - h (t - 1) * P (t - 1)) ∧
    excess_return C h P rfr T = ∑ k in Finset.range T, dExcessReturn C h P rfr k := by
  subst hr
  have ht0 : t ≠ 0 := by omega
  exact ⟨by simp [dExcessReturn], by simp [dExcessReturn, ht0], rfl⟩

/-- Witness for C1: the theorem applied to a concrete series. -/
theorem excess_return_series_correct_witness :
    ((0 : ℝ) = 0 / 260 ∧ 1 ≤ 1 ∧ 1 < 2) ∧
    (dExcessReturn (fun _ => 0) (fun _ => 0) (fun _ => 0) 0 0 = 0 ∧
      dExcessReturn (fun _ => 0) (fun _ => 0) (fun _ => 0) 0 1
          = ((0 : ℝ) - 0) - 0 * (0 - 0) - 0 * (0 - 0 * 0) ∧
      excess_return (fun _ => 0) (fun _ => 0) (fun _ => 0) 0 2
          = ∑ k in Finset.range 2, dExcessReturn (fun _ => 0) (fun _ => 0) (fun _ => 0) 0 k) :=
  ⟨⟨by norm_num, le_rfl, by norm_num⟩,
    excess_return_series_correct (fun _ => 0) (fun _ => 0) (fun _ => 0) 0 0 2 1
      (by norm_num) le_rfl (by norm_num)⟩

/-- C4: every generated price path starts exactly at the initial price 100,
stays strictly positive at every day, and follows the recurrence
`price[t] = price[t-1] * exp(R + v*z)`. -/
theorem path_initial_and_positive (z : ℕ → ℝ) :
    pathPrice z 0 = 100 ∧ (∀ t, 0 < pathPrice z t) ∧
    (∀ t, pathPrice z (t + 1) = pathPrice z t * Real.exp (R + v * z (t + 1))) :=
  ⟨rfl, pathPrice_pos z, fun _ => rfl⟩

/-- C5: the option grid evaluates the pricer at day `j` with time to expiry
`(25 - j)/260`; it is positive for every day of the path, and on the final
observed day `j = 24` it is exactly `1/260`, never zero. -/
theorem optionGrid_time_to_expiry (assets : ℕ → ℕ → ℝ) (strike rfr vol div : ℝ)
    (i j : ℕ) (hj : j < 25) :
    optionGridEntry assets strike rfr vol div i j
        = bscall (assets i j) strike rfr vol div ((25 - (j : ℝ)) / 260) ∧
    gridTimeToExpiry j = (25 - (j : ℝ)) / 260 ∧
    0 < gridTimeToExpiry j ∧
    gridTimeToExpiry 24 = 1 / 260 := by
  have hj' : (j : ℝ) < 25 := by exact_mod_cast hj
  have hcast : ((25 - j : ℕ) : ℝ) = 25 - (j : ℝ) := by
    have : j ≤ 25 := hj.le
    push_cast [this]
    ring
  have hT : gridTimeToExpiry j = (25 - (j : ℝ)) / 260 := by
    rw [gridTimeToExpiry, hcast]
  refine ⟨by rw [optionGridEntry, hT], hT, ?_, by norm_num [gridTimeToExpiry]⟩
  rw [hT]
  have : 0 < 25 - (j : ℝ) := by linarith
  positivity

/-- Witness for C5: the theorem applied at the final observed day. -/
theorem optionGrid_time_to_expiry_witness :
    (24 < 25) ∧
    (optionGridEntry (fun _ _ => 100) 100 0.05 0.15 0 0 24
        = bscall ((fun (_ _ : ℕ) => (100 : ℝ)) 0 24) 100 0.05 0.15 0 ((25 - (24 : ℝ)) / 260) ∧
      gridTimeToExpiry 24 = (25 - (24 : ℝ)) / 260 ∧
      0 < gridTimeToExpiry 24 ∧
      gridTimeToExpiry 24 = 1 / 260) :=
  ⟨by norm_num,
    optionGrid_time_to_expiry (fun _ _ => 100) 100 0.05 0.15 0 0 24 (by norm_num)⟩

/-- C8: the aggregation operations fail with EmptyInput on an empty collection,
and the population standard deviation of a single-element collection is 0. -/
theorem aggregation_empty_and_singleton :
    aggMean ([] : List ℝ) = Except.error AggError.EmptyInput ∧
    aggStd ([] : List ℝ) = Except.error AggError.EmptyInput ∧
    aggCount ([] : List ℝ) = Except.error AggError.EmptyInput ∧
    ∀ x : ℝ, aggStd [x] = Except.ok 0 := by
  refine ⟨by simp [aggMean], by simp [aggStd], by simp [aggCount], fun x => ?_⟩
  have h2 : npStd [x] = 0 := by
    rw [show ([x] : List ℝ) = List.replicate 1 x from List.replicate_one.symm,
      npStd_replicate]
  simp [aggStd, h2]

/-- C10: because the inner loop rebinds the scalar `dr` instead of writing
`dr[t]`, every entry of `daily_returns[i]` is the final day's single log
return, every per-asset standard deviation `vol[i]` is exactly 0, and the
reported mean and standard deviation of annualized realized volatility are
exactly 0 for every choice of random draws. -/
theorem realized_volatility_identically_zero (zs : ℕ → ℕ → ℝ) :
    (∀ i, daily_returns_row (zs i)
        = List.replicate 25 (Real.log (pathPrice (zs i) 24 / pathPrice (zs i) 23))) ∧
    (∀ i, volOf (zs i) = 0) ∧
    mean_annualized_volatility zs = 0 ∧
    stdev_annualized_volatility zs = 0 := by
  have hrow : ∀ i, daily_returns_row (zs i)
      = List.replicate 25 (Real.log (pathPrice (zs i) 24 / pathPrice (zs i) 23)) := by
    intro i
    rw [daily_returns_row, drVar]
    norm_num
  have hvol : ∀ i, volOf (zs i) = 0 := by
    intro i
    rw [volOf, hrow i, npStd_replicate]
  have hzero : ∀ x ∈ vols zs, x = 0 := by
    intro x hx
    obtain ⟨i, _, rfl⟩ := List.mem_map.1 hx
    exact hvol i
  refine ⟨hrow, hvol, ?_, ?_⟩
  · rw [mean_annualized_volatility, npMean_of_all_zero _ hzero, zero_mul]
  · rw [stdev_annualized_volatility, npStd_of_all_zero _ hzero, zero_mul]

/-- C2: the pricer returns the pair (call_price, delta) given by the spec's
d1/d2/call/delta formulas. -/
theorem bscall_matches_spec_contract (spot strike rate vol div T : ℝ)
    (hs : 0 < spot) (hk : 0 < strike) (hv : 0 < vol) (hT : 0 < T) :
    bscall spot strike rate vol div T = bscallSpecContract spot strike rate vol div T := by
  rw [bscall, bscallSpecContract, bscall_d1, bscall_d2, bscall_d1]

/-- Witness for C2: the theorem applied at a concrete valid input. -/
theorem bscall_matches_spec_contract_witness :
    ((0 : ℝ) < 1 ∧ (0 : ℝ) < 1 ∧ (0 : ℝ) < 1 ∧ (0 : ℝ) < 1) ∧
    bscall 1 1 0 1 0 1 = bscallSpecContract 1 1 0 1 0 1 :=
  ⟨⟨one_pos, one_pos, one_pos, one_pos⟩,
    bscall_matches_spec_contract 1 1 0 1 0 1 one_pos one_pos one_pos one_pos⟩

/-- C7 counterexample: `avg_ITM` is not the mean payoff conditional on being in
the money.  With final prices `[2, 0]` and strike 1, one of the two paths is in
the money with payoff 1: the conditional mean is 1, but the code's
`np.mean(inTheMoney[i,:,1]*inTheMoney[i,:,0])` averages over all paths and
returns 1/2. -/
theorem avgITM_not_conditional_mean :
    avg_ITM [2, 0] 1 = 1 / 2 ∧ avg_ITM_condSpec [2, 0] 1 = 1 ∧
    avg_ITM [2, 0] 1 ≠ avg_ITM_condSpec [2, 0] 1 := by
  have h2 : itmPayoff 2 1 = 1 := by norm_num [itmPayoff]
  have h0 : itmPayoff 0 1 = 0 := by norm_num [itmPayoff]
  have i2 : itmIndicator 2 1 = 1 := by norm_num [itmIndicator]
  have i0 : itmIndicator 0 1 = 0 := by norm_num [itmIndicator]
  have ha : avg_ITM [2, 0] 1 = 1 / 2 := by
    rw [avg_ITM]
    simp [npMean, h2, h0, i2, i0]
  have hb : avg_ITM_condSpec [2, 0] 1 = 1 := by
    rw [avg_ITM_condSpec, num_ITM]
    simp [h2, h0, i2, i0]
  exact ⟨ha, hb, by rw [ha, hb]; norm_num⟩

/-- C7 (amended): the in-the-money summary computes, per strike, the indicator
(1 iff final > strike), the payoff max(final - strike, 0), the count of
in-the-money paths as the sum of indicators, the mean of the indicator-weighted
payoff over all paths (total payoff over total path count, not the conditional
mean), and the standard deviation of the indicator-weighted payoff. -/
theorem itm_summary_amended (finals : List ℝ) (strike p : ℝ) :
    (itmIndicator p strike = 1 ↔ strike < p) ∧
    (itmIndicator p strike = 0 ↔ p ≤ strike) ∧
    itmPayoff p strike = max (p - strike) 0 ∧
    num_ITM finals strike = (finals.map (fun q => itmIndicator q strike)).sum ∧
    avg_ITM finals strike
        = (finals.map (fun q => itmPayoff q strike)).sum / (finals.length : ℝ) ∧
    stdev_ITM finals strike
        = npStd (finals.map (fun q => itmIndicator q strike * itmPayoff q strike)) := by
  refine ⟨?_, ?_, ?_, rfl, ?_, rfl⟩
  · rw [itmIndicator]
    split_ifs with hlt <;> norm_num [hlt]
  · rw [itmIndicator]
    split_ifs with hlt
    · simpa using hlt
    · simpa using le_of_not_lt hlt
  · rw [itmPayoff]
    split_ifs with hlt
    · rw [max_eq_left (by linarith)]
    · rw [max_eq_right (by linarith [le_of_not_lt hlt])]
  · have hfun : (fun q => itmPayoff q strike * itmIndicator q strike)
        = fun q => itmPayoff q strike := by
      funext q
      rw [itmPayoff, itmIndicator]
      split_ifs <;> ring
    rw [avg_ITM, hfun, npMean, List.length_map]

/-- Rounding half-to-even is within 1/2 of the input. -/
lemma abs_npRound_sub (x : ℝ) : |(npRound x : ℝ) - x| ≤ 1 / 2 := by
  rw [npRound]
  split_ifs with h1 h2
  · have hx : x - (⌊x⌋ : ℝ) = 1 / 2 := by rw [Int.self_sub_floor]; exact h1
    rw [abs_sub_comm, hx, abs_le]
    norm_num
  · have hx : x - (⌊x⌋ : ℝ) = 1 / 2 := by rw [Int.self_sub_floor]; exact h1
    have hval : ((⌊x⌋ + 1 : ℤ) : ℝ) - x = 1 / 2 := by push_cast; linarith
    rw [hval, abs_le]
    norm_num
  · rw [abs_sub_comm]
    exact abs_sub_round x

/-- Lot rounding moves a delta by at most half a lot. -/
lemma roundLot_close (K d : ℝ) (hK : 0 < K) : |roundLot K d - d| ≤ K / 2 := by
  have h := abs_npRound_sub (d / K)
  have hK0 : K ≠ 0 := hK.ne'
  have key : roundLot K d - d = K * ((npRound (d / K) : ℝ) - d / K) := by
    rw [roundLot, mul_sub, mul_div_cancel₀ d hK0]
  calc |roundLot K d - d| = K * |(npRound (d / K) : ℝ) - d / K| := by
        rw [key, abs_mul, abs_of_pos hK]
    _ ≤ K * (1 / 2) := mul_le_mul_of_nonneg_left h hK.le
    _ = K / 2 := by ring

/-- As the lot size shrinks to zero, lot-rounded deltas converge to the
continuous delta. -/
lemma roundLot_tendsto (d : ℝ) :
    Tendsto (fun K => roundLot K d) (nhdsWithin 0 (Set.Ioi 0)) (nhds d) := by
  have h0 : Tendsto (fun K => roundLot K d - d) (nhdsWithin 0 (Set.Ioi 0)) (nhds 0) := by
    apply squeeze_zero_norm' (a := fun K : ℝ => K / 2)
    · filter_upwards [self_mem_nhdsWithin] with K hK
      rw [Real.norm_eq_abs]
      exact roundLot_close K d hK
    · have h2 : Tendsto (fun K : ℝ => K / 2) (nhds 0) (nhds (0 / 2)) :=
        (continuous_id.div_const 2).tendsto 0
      simpa using h2.mono_left nhdsWithin_le_nhds
  have h0' : Tendsto (fun K => roundLot K d - d) (nhdsWithin 0 (Set.Ioi 0)) (nhds (d - d)) := by
    rwa [sub_self]
  exact (Filter.tendsto_sub_const_iff d).1 h0'

/-- The daily excess return with lot-rounded deltas converges to the one with
continuous deltas as the lot size shrinks to zero. -/
lemma dExcessReturn_tendsto_lot (C h P : ℕ → ℝ) (rfr : ℝ) (t : ℕ) :
    Tendsto (fun K => dExcessReturn C (fun s => roundLot K (h s)) P rfr t)
      (nhdsWithin 0 (Set.Ioi 0)) (nhds (dExcessReturn C h P rfr t)) := by
  rcases eq_or_ne t 0 with rfl | ht
  · simp only [dExcessReturn, if_pos rfl]
    exact tendsto_const_nhds
  · have hg : Continuous (fun X : ℝ =>
        (C t - C (t - 1)) - X * (P t - P (t - 1))
          - rfr / 260 * (C (t - 1) - X * P (t - 1))) := by continuity
    have hcomp := (hg.tendsto (h (t - 1))).comp (roundLot_tendsto (h (t - 1)))
    have heq : (fun K => dExcessReturn C (fun s => roundLot K (h s)) P rfr t)
        = (fun X : ℝ => (C t - C (t - 1)) - X * (P t - P (t - 1))
            - rfr / 260 * (C (t - 1) - X * P (t - 1)))
          ∘ (fun K => roundLot K (h (t - 1))) := by
      funext K
      simp [dExcessReturn, ht, Function.comp]
    have htarget : dExcessReturn C h P rfr t
        = (C t - C (t - 1)) - h (t - 1) * (P t - P (t - 1))
            - rfr / 260 * (C (t - 1) - h (t - 1) * P (t - 1)) := by
      simp [dExcessReturn, ht]
    rw [heq, htarget]
    exact hcomp

/-- C6: for a positive lot size K the hedge ratio is K * round(d/K), a multiple
of K within K/2 of the delta d; as K shrinks to zero the lot-rounded daily
excess-return series converges to the continuous-delta series; and an omitted
or zero lot size means no rounding at all. -/
theorem lot_rounding_properties (d K : ℝ) (hK : 0 < K) (C h P : ℕ → ℝ) (rfr : ℝ) (t : ℕ) :
    (∃ m : ℤ, roundLot K d = (m : ℝ) * K) ∧
    |roundLot K d - d| ≤ K / 2 ∧
    Tendsto (fun k => dExcessReturn C (fun s => roundLot k (h s)) P rfr t)
      (nhdsWithin 0 (Set.Ioi 0)) (nhds (dExcessReturn C h P rfr t)) ∧
    hedgeDeltas none h = h ∧ hedgeDeltas (some 0) h = h := by
  refine ⟨⟨npRound (d / K), by rw [roundLot]; ring⟩, roundLot_close K d hK,
    dExcessReturn_tendsto_lot C h P rfr t, rfl, by simp [hedgeDeltas]⟩

/-- Witness for C6: the theorem applied at lot size 1 and delta 1/4. -/
theorem lot_rounding_properties_witness :
    ((0 : ℝ) < 1) ∧
    ((∃ m : ℤ, roundLot 1 (1 / 4) = (m : ℝ) * 1) ∧
      |roundLot 1 (1 / 4) - 1 / 4| ≤ 1 / 2 ∧
      Tendsto (fun k => dExcessReturn (fun _ => 0) (fun s => roundLot k ((fun _ => 0) s))
          (fun _ => 0) 0 0)
        (nhdsWithin 0 (Set.Ioi 0))
        (nhds (dExcessReturn (fun _ => 0) (fun _ => 0) (fun _ => 0) 0 0)) ∧
      hedgeDeltas none (fun _ => 0) = (fun _ => 0) ∧
      hedgeDeltas (some 0) (fun _ => 0) = (fun _ => 0)) :=
  ⟨one_pos,
    by
      have h := lot_rounding_properties (1 / 4) 1 one_pos
        (fun _ => 0) (fun _ => 0) (fun _ => 0) 0 0
      norm_num at h ⊢
      exact h⟩

/-- The Gaussian kernel is integrable on the whole line. -/
lemma gaussKernel_integrable : Integrable (fun t : ℝ => Real.exp (-(t ^ 2) / 2)) := by
  have h : (fun t : ℝ => Real.exp (-(t ^ 2) / 2))
      = fun t : ℝ => Real.exp (-(1 / 2 : ℝ) * t ^ 2) := by
    funext t
    congr 1
    ring
  rw [h]
  exact integrable_exp_neg_mul_sq (by norm_num)

/-- The Gaussian kernel is continuous. -/
lemma gaussKernel_continuous : Continuous fun t : ℝ => Real.exp (-(t ^ 2) / 2) := by
  continuity

/-- The standard normal distribution function differentiates to the standard
normal density. -/
lemma normCdf_hasDerivAt (x : ℝ) : HasDerivAt normCdf (normPdf x) x := by
  have hsplit : (fun y : ℝ => ∫ t in Set.Iic y, Real.exp (-(t ^ 2) / 2))
      = fun y : ℝ => (∫ t in Set.Iic (0 : ℝ), Real.exp (-(t ^ 2) / 2))
          + ∫ t in (0 : ℝ)..y, Real.exp (-(t ^ 2) / 2) := by
    funext y
    have h : (∫ t in Set.Iic y, Real.exp (-(t ^ 2) / 2))
        - ∫ t in Set.Iic (0 : ℝ), Real.exp (-(t ^ 2) / 2)
        = ∫ t in (0 : ℝ)..y, Real.exp (-(t ^ 2) / 2) :=
      intervalIntegral.integral_Iic_sub_Iic
        gaussKernel_integrable.integrableOn gaussKernel_integrable.integrableOn
    linarith
  have hFTC : HasDerivAt (fun y : ℝ => ∫ t in (0 : ℝ)..y, Real.exp (-(t ^ 2) / 2))
      (Real.exp (-(x ^ 2) / 2)) x :=
    (gaussKernel_continuous.integral_hasStrictDerivAt 0 x).hasDerivAt
  have hIic : HasDerivAt (fun y : ℝ => ∫ t in Set.Iic y, Real.exp (-(t ^ 2) / 2))
      (Real.exp (-(x ^ 2) / 2)) x := by
    rw [hsplit]
    exact hFTC.const_add _
  show HasDerivAt
    (fun y : ℝ => (Real.sqrt (2 * Real.pi))⁻¹ * ∫ t in Set.Iic y, Real.exp (-(t ^ 2) / 2))
    ((Real.sqrt (2 * Real.pi))⁻¹ * Real.exp (-(x ^ 2) / 2)) x
  exact hIic.const_mul _

/-- The standard normal density is strictly positive. -/
lemma normPdf_pos (x : ℝ) : 0 < normPdf x := by
  show 0 < (Real.sqrt (2 * Real.pi))⁻¹ * Real.exp (-(x ^ 2) / 2)
  have h2π : 0 < Real.sqrt (2 * Real.pi) :=
    Real.sqrt_pos.2 (by positivity)
  exact mul_pos (inv_pos.2 h2π) (Real.exp_pos _)

/-- Vega of the call: the derivative of the call price in the volatility, for
positive spot, strike, time to expiry and volatility. -/
lemma bscall_call_hasDerivAt_vol (S K r q T : ℝ) (hS : 0 < S) (hK : 0 < K)
    (hT : 0 < T) {x : ℝ} (hx : 0 < x) :
    HasDerivAt (fun w => (bscall S K r w q T).1)
      (S * Real.exp (-q * T) * normPdf (bscall_d1 S K r x q T) * Real.sqrt T) x := by
  have hsq : 0 < Real.sqrt T := Real.sqrt_pos.2 hT
  have hxs0 : x * Real.sqrt T ≠ 0 := (mul_pos hx hsq).ne'
  have hpow : HasDerivAt (fun w : ℝ => w ^ 2) (2 * x) x := by
    simpa using hasDerivAt_pow 2 x
  have hnum : HasDerivAt (fun w : ℝ => Real.log (S / K) + (r - q + w ^ 2 / 2) * T)
      (x * T) x := by
    have h3 := (((hpow.div_const 2).const_add (r - q)).mul_const T).const_add
      (Real.log (S / K))
    convert h3 using 1
    ring
  have hden : HasDerivAt (fun w : ℝ => w * Real.sqrt T) (Real.sqrt T) x := by
    simpa using (hasDerivAt_id x).mul_const (Real.sqrt T)
  have hd1x : HasDerivAt (fun w => bscall_d1 S K r w q T)
      ((x * T * (x * Real.sqrt T)
          - (Real.log (S / K) + (r - q + x ^ 2 / 2) * T) * Real.sqrt T)
        / (x * Real.sqrt T) ^ 2) x := by
    have h := hnum.div hden hxs0
    simpa [bscall_d1] using h
  obtain ⟨y1, hd1⟩ : ∃ y1, HasDerivAt (fun w => bscall_d1 S K r w q T) y1 x := ⟨_, hd1x⟩
  have hd2 : HasDerivAt (fun w => bscall_d2 S K r w q T) (y1 - Real.sqrt T) x := by
    have h := hd1.sub ((hasDerivAt_id x).mul_const (Real.sqrt T))
    simpa [bscall_d2] using h
  have hcall : HasDerivAt (fun w => (bscall S K r w q T).1)
      (S * Real.exp (-q * T) * (normPdf (bscall_d1 S K r x q T) * y1)
        - K * Real.exp (-r * T) * (normPdf (bscall_d2 S K r x q T) * (y1 - Real.sqrt T))) x := by
    have hc1 := (normCdf_hasDerivAt (bscall_d1 S K r x q T)).comp x hd1
    have hc2 := (normCdf_hasDerivAt (bscall_d2 S K r x q T)).comp x hd2
    have h := (hc1.const_mul (S * Real.exp (-q * T))).sub
      (hc2.const_mul (K * Real.exp (-r * T)))
    simpa [bscall, Function.comp] using h
  have hd1mul : bscall_d1 S K r x q T * (x * Real.sqrt T)
      = Real.log (S / K) + (r - q + x ^ 2 / 2) * T := by
    simp only [bscall_d1]
    exact div_mul_cancel₀ _ hxs0
  have hexparg : bscall_d1 S K r x q T * (x * Real.sqrt T) - (x * Real.sqrt T) ^ 2 / 2
      = Real.log (S / K) + (r - q) * T := by
    rw [hd1mul, mul_pow, Real.sq_sqrt hT.le]
    ring
  have hexp : normPdf (bscall_d2 S K r x q T)
      = normPdf (bscall_d1 S K r x q T)
        * Real.exp (bscall_d1 S K r x q T * (x * Real.sqrt T) - (x * Real.sqrt T) ^ 2 / 2) := by
    simp only [normPdf]
    rw [mul_assoc, ← Real.exp_add]
    congr 1
    rw [show bscall_d2 S K r x q T = bscall_d1 S K r x q T - x * Real.sqrt T from rfl]
    ring
  have hid : K * Real.exp (-r * T) * normPdf (bscall_d2 S K r x q T)
      = S * Real.exp (-q * T) * normPdf (bscall_d1 S K r x q T) := by
    rw [hexp, hexparg, Real.exp_add, Real.exp_log (div_pos hS hK)]
    rw [show K * Real.exp (-r * T)
          * (normPdf (bscall_d1 S K r x q T) * (S / K * Real.exp ((r - q) * T)))
        = S * (Real.exp (-r * T) * Real.exp ((r - q) * T)) * normPdf (bscall_d1 S K r x q T)
          * (K / K) from by ring]
    rw [div_self hK.ne', ← Real.exp_add, show -r * T + (r - q) * T = -q * T from by ring]
    ring
  have heq : S * Real.exp (-q * T) * (normPdf (bscall_d1 S K r x q T) * y1)
      - K * Real.exp (-r * T) * (normPdf (bscall_d2 S K r x q T) * (y1 - Real.sqrt T))
      = S * Real.exp (-q * T) * normPdf (bscall_d1 S K r x q T) * Real.sqrt T := by
    linear_combination (Real.sqrt T - y1) * hid
  exact heq ▸ hcall

/-- C9: for fixed spot > 0, strike > 0, any rate and dividend yield, and time
to expiry > 0, the call price returned by the pricer is strictly increasing in
the volatility. -/
theorem bscall_strictMono_in_vol (S K r q T v1 v2 : ℝ) (hS : 0 < S) (hK : 0 < K)
    (hT : 0 < T) (hv1 : 0 < v1) (h12 : v1 < v2) :
    (bscall S K r v1 q T).1 < (bscall S K r v2 q T).1 := by
  have mono : StrictMonoOn (fun w => (bscall S K r w q T).1) (Set.Ioi 0) := by
    apply strictMonoOn_of_deriv_pos (convex_Ioi 0)
    · intro w hw
      exact (bscall_call_hasDerivAt_vol S K r q T hS hK hT
        (Set.mem_Ioi.1 hw)).continuousAt.continuousWithinAt
    · intro w hw
      rw [interior_Ioi] at hw
      rw [(bscall_call_hasDerivAt_vol S K r q T hS hK hT (Set.mem_Ioi.1 hw)).deriv]
      exact mul_pos (mul_pos (mul_pos hS (Real.exp_pos _))
        (normPdf_pos _)) (Real.sqrt_pos.2 hT)
  exact mono (Set.mem_Ioi.2 hv1) (Set.mem_Ioi.2 (hv1.trans h12)) h12

/-- Witness for C9: the theorem applied at a concrete valid input. -/
theorem bscall_strictMono_in_vol_witness :
    ((0 : ℝ) < 1 ∧ (0 : ℝ) < 1 ∧ (0 : ℝ) < 1 ∧ (0 : ℝ) < 1 ∧ (1 : ℝ) < 2) ∧
    (bscall 1 1 0 1 0 1).1 < (bscall 1 1 0 2 0 1).1 :=
  ⟨⟨one_pos, one_pos, one_pos, one_pos, one_lt_two⟩,
    bscall_strictMono_in_vol 1 1 0 0 1 1 2 one_pos one_pos one_pos one_pos one_lt_two⟩

end Figlewski
